import Mathlib

/-!
Verification of the envelope-following integration engine of the
`numerical-integration` repository, against its design specification.

The repository ships only a driver notebook; the library it exercises
(the `polimi` package: `forward_euler`, `bdf`, `solve_ivp`,
`envelope._envelope_system`, `envelope.envelope_full`) is not part of the
source tree.  Following the specification, every operation below is a
shallow embedding modelled from the spec's words, with real numbers
represented by rationals and failure represented by `Except`.
-/

/-- A state vector: a fixed-length ordered sequence of reals (spec §3). -/
abbrev StateVec := List ℚ

/-- A pure system function `(t, y) ↦ dy/dt` (spec §3, §6). -/
abbrev Sys := ℚ → StateVec → StateVec

/-- Errors surfaced by a solve (spec §7): non-convergence of an implicit
step's nonlinear solve, and the two invalid-configuration cases. -/
inductive SolveError
  | nonConvergence
  | nonPositiveStep
  | badOrder
deriving DecidableEq, Repr

/-- Decidable equality of solve results, so that concrete runs can be
checked by evaluation. -/
instance {ε α : Type _} [DecidableEq ε] [DecidableEq α] : DecidableEq (Except ε α) :=
  fun a b =>
  match a, b with
  | Except.error e, Except.error f =>
      if h : e = f then isTrue (by rw [h]) else isFalse (by simp [h])
  | Except.error _, Except.ok _ => isFalse (fun h => Except.noConfusion h)
  | Except.ok _, Except.error _ => isFalse (fun h => Except.noConfusion h)
  | Except.ok x, Except.ok y =>
      if h : x = y then isTrue (by rw [h]) else isFalse (by simp [h])

/-- A fallible right-hand side: evaluations of the envelope system may
fail, so integrators accept a system function returning `Except`. -/
abbrev FSys := ℚ → StateVec → Except SolveError StateVec

/-- Lift a pure system function to a fallible one. -/
def liftSys (f : Sys) : FSys := fun t y => Except.ok (f t y)

/-- Componentwise vector addition. -/
def vecAdd (a b : StateVec) : StateVec := List.zipWith (fun x y => x + y) a b

/-- Componentwise vector subtraction. -/
def vecSub (a b : StateVec) : StateVec := List.zipWith (fun x y => x - y) a b

/-- Scalar multiple of a vector. -/
def vecScale (c : ℚ) (a : StateVec) : StateVec := a.map (fun x => c * x)

/-- One-norm of a vector, used as the convergence measure of the
fixed-point iteration. -/
def norm1 (v : StateVec) : ℚ := (v.map (fun x => |x|)).sum

/-- Convergence tolerance of the nonlinear solves. -/
def fpTol : ℚ := 1 / 1000000

/-- Iteration budget of the nonlinear solves (spec §4.3: bounded
iteration count, non-convergence is reported). -/
def maxIter : Nat := 6

/-- The result object of a solve (spec §3, §6): trajectory times `t` and
states `y`, the optional event-time lists, and the optional macro
(envelope) times `T` and states `Z`. -/
structure SolutionBundle where
  t : List ℚ
  y : List StateVec
  t_events : List (List ℚ)
  T : List ℚ
  Z : List StateVec
deriving DecidableEq, Repr

/-- Bounded fixed-point iteration for an implicit step (spec §4.3):
iterate `z ← g z` until successive iterates agree to within `fpTol`;
exhausting the budget reports non-convergence instead of returning a
degenerate value. -/
def fpIter (g : StateVec → Except SolveError StateVec) :
    Nat → StateVec → Except SolveError StateVec
  | 0, _ => Except.error SolveError.nonConvergence
  | k + 1, z =>
      match g z with
      | Except.error e => Except.error e
      | Except.ok z2 =>
          if norm1 (vecSub z2 z) ≤ fpTol then Except.ok z2 else fpIter g k z2

/-- Number of internal sub-steps taken by the model of the variable-step
stiff integrator (spec §4.4: its step selection is a black box; the
model subdivides the interval uniformly). -/
def NSUB : Nat := 4

/-- The internal time grid of the variable-step model on `[t0, t1]`,
excluding the initial time `t0`.  Its last point is exactly `t1`. -/
def uniformTail (t0 t1 : ℚ) : List ℚ :=
  (List.range NSUB).map (fun (i : ℕ) => t0 + ((i : ℚ) + 1) * ((t1 - t0) / (NSUB : ℚ)))

/-- One implicit (backward-Euler) step from state `y` to time `tn` with
step size `h`, solved by the bounded fixed-point iteration. -/
def implicitStep (F : FSys) (tn h : ℚ) (y : StateVec) : Except SolveError StateVec :=
  fpIter (fun z =>
    match F tn z with
    | Except.error e => Except.error e
    | Except.ok d => Except.ok (vecAdd y (vecScale h d))) maxIter y

/-- March the implicit stepper across a list of target times, threading
the current time and state; any failed step aborts the whole solve
(spec §7: no partial, silently-truncated results). -/
def ivpLoop (F : FSys) : List ℚ → ℚ → StateVec → Except SolveError (List (ℚ × StateVec))
  | [], _, _ => Except.ok []
  | tn :: rest, t, y =>
      match implicitStep F tn (tn - t) y with
      | Except.error e => Except.error e
      | Except.ok y2 =>
          match ivpLoop F rest tn y2 with
          | Except.error e => Except.error e
          | Except.ok tail => Except.ok ((tn, y2) :: tail)

/-- Modelled from the spec: the core of `polimi.solve_ivp` (spec §4.4),
whose numerical internals are not under `src/`.  Integrates `F` over
`[t0, t1]` from `y0` and returns the trajectory after the initial point. -/
def ivpCore (F : FSys) (t0 t1 : ℚ) (y0 : StateVec) :
    Except SolveError (List (ℚ × StateVec)) :=
  ivpLoop F (uniformTail t0 t1) t0 y0

/-- Post-hoc event detection (spec §4.4, §9): scan adjacent trajectory
samples for a sign change of the event function and record the root of
the linear interpolant as the crossing time. -/
def crossings (e : ℚ → StateVec → ℚ) : List (ℚ × StateVec) → List ℚ
  | [] => []
  | [_] => []
  | p :: q :: rest =>
      let ea := e p.1 p.2
      let eb := e q.1 q.2
      if ea * eb < 0 then
        (p.1 * eb - q.1 * ea) / (eb - ea) :: crossings e (q :: rest)
      else crossings e (q :: rest)

/-- Modelled from the spec: `polimi.solve_ivp` (spec §4.4), not under
`src/`.  Returns the trajectory plus one crossing-time list per supplied
event function. -/
def solve_ivp (F : FSys) (t0 t1 : ℚ) (y0 : StateVec)
    (events : List (ℚ → StateVec → ℚ)) : Except SolveError SolutionBundle :=
  match ivpCore F t0 t1 y0 with
  | Except.error e => Except.error e
  | Except.ok pairs =>
      Except.ok { t := t0 :: pairs.map Prod.fst
                , y := y0 :: pairs.map Prod.snd
                , t_events := events.map (fun e => crossings e ((t0, y0) :: pairs))
                , T := []
                , Z := [] }

/-- Fuel for the forward-Euler loop: enough for every step up to `tend`. -/
def feFuel (t0 tend H : ℚ) : Nat := (⌈(tend - t0) / H⌉).toNat + 1

/-- The forward-Euler stepping loop (spec §4.2): advance by `H` until the
end of the interval is reached, clipping the final step so that the last
time is exactly `tend`. -/
def feLoop (F : FSys) (tend H : ℚ) : Nat → ℚ → StateVec → Except SolveError (List (ℚ × StateVec))
  | 0, _, _ => Except.ok []
  | fuel + 1, t, y =>
      if tend ≤ t then Except.ok []
      else
        match F t y with
        | Except.error e => Except.error e
        | Except.ok d =>
            let t2 := if t + H ≤ tend then t + H else tend
            let y2 := vecAdd y (vecScale (t2 - t) d)
            match feLoop F tend H fuel t2 y2 with
            | Except.error e => Except.error e
            | Except.ok tail => Except.ok ((t2, y2) :: tail)

/-- Modelled from the spec: `polimi.solvers.forward_euler` (spec §4.2,
§7), not under `src/`.  Validates the configuration before any stepping
begins, then runs the explicit fixed-step loop. -/
def forward_euler (F : FSys) (t0 tend : ℚ) (y0 : StateVec) (H : ℚ) :
    Except SolveError SolutionBundle :=
  if H ≤ 0 then Except.error SolveError.nonPositiveStep
  else
    match feLoop F tend H (feFuel t0 tend H) t0 y0 with
    | Except.error e => Except.error e
    | Except.ok pairs =>
        Except.ok { t := t0 :: pairs.map Prod.fst
                  , y := y0 :: pairs.map Prod.snd
                  , t_events := [], T := [], Z := [] }

/-- Standard BDF coefficients for orders 1 to 4 (spec §4.3): the step
equation is `y_next = Σ_j α_j y_(n-j) + H β F(t_next, y_next)`.
Returns the history coefficients `α` and the derivative coefficient `β`. -/
def bdfCoeffs : Nat → List ℚ × ℚ
  | 1 => ([1], 1)
  | 2 => ([4/3, -1/3], 2/3)
  | 3 => ([18/11, -9/11, 2/11], 6/11)
  | 4 => ([48/25, -36/25, 16/25, -3/25], 12/25)
  | _ => ([1], 1)

/-- Sum of a nonempty list of state vectors. -/
def sumVecs : List StateVec → StateVec
  | [] => []
  | v :: vs => vs.foldl vecAdd v

/-- The history combination `Σ_j α_j y_(n-j)` of a BDF step; `hist`
holds the past states, most recent first. -/
def bdfHistComb (al : List ℚ) (hist : List StateVec) : StateVec :=
  sumVecs (List.zipWith vecScale al hist)

/-- One implicit BDF step of order `k` to time `tn` (spec §4.3), solved
by the bounded fixed-point iteration starting from the previous state. -/
def bdfStep (F : FSys) (tn H : ℚ) (k : Nat) (hist : List StateVec) :
    Except SolveError StateVec :=
  let ab := bdfCoeffs k
  fpIter (fun z =>
    match F tn z with
    | Except.error e => Except.error e
    | Except.ok d => Except.ok (vecAdd (bdfHistComb ab.1 hist) (vecScale (H * ab.2) d)))
    maxIter (hist.headD [])

/-- March BDF steps across the time grid, accumulating history; the
startup ramp (spec §4.3) uses the order allowed by the available
history, capped at the requested order. -/
def bdfLoop (F : FSys) (H : ℚ) (order : Nat) :
    List ℚ → List StateVec → Except SolveError (List (ℚ × StateVec))
  | [], _ => Except.ok []
  | tn :: rest, hist =>
      match bdfStep F tn H (min order hist.length) hist with
      | Except.error e => Except.error e
      | Except.ok y2 =>
          match bdfLoop F H order rest (y2 :: hist) with
          | Except.error e => Except.error e
          | Except.ok tail => Except.ok ((tn, y2) :: tail)

/-- Number of whole fixed steps of size `H` that fit in `[t0, tend]`.
A fixed-step multistep method needs a uniform grid, so no clipped
partial step is taken and the grid never overshoots `tend`. -/
def bdfSteps (t0 tend H : ℚ) : Nat := (⌊(tend - t0) / H⌋).toNat

/-- The uniform BDF time grid after the initial time: `t0 + (i+1)·H`. -/
def bdfTimes (t0 tend H : ℚ) : List ℚ :=
  (List.range (bdfSteps t0 tend H)).map (fun (i : ℕ) => t0 + ((i : ℚ) + 1) * H)

/-- Modelled from the spec: `polimi.solvers.bdf` (spec §4.3, §7), not
under `src/`.  Rejects an invalid configuration (non-positive step, or
order outside 1..4) before any stepping begins. -/
def bdf (F : FSys) (t0 tend : ℚ) (y0 : StateVec) (H : ℚ) (order : Nat) :
    Except SolveError SolutionBundle :=
  if H ≤ 0 then Except.error SolveError.nonPositiveStep
  else if order < 1 ∨ 4 < order then Except.error SolveError.badOrder
  else
    match bdfLoop F H order (bdfTimes t0 tend H) [y0] with
    | Except.error e => Except.error e
    | Except.ok pairs =>
        Except.ok { t := t0 :: pairs.map Prod.fst
                  , y := y0 :: pairs.map Prod.snd
                  , t_events := [], T := [], Z := [] }

/-- Modelled from the spec: `polimi.envelope._envelope_system` (spec
§4.5), not under `src/`.  Integrates the fast system `F` forward from
`(t, y)` over exactly `[t, t + T]` with a nested sub-solve and returns
the finite difference `(y(t+T) - y) / T`; a failed sub-integration
propagates as a failed evaluation. -/
def _envelope_system (t : ℚ) (y : StateVec) (F : Sys) (T : ℚ) :
    Except SolveError StateVec :=
  match ivpCore (liftSys F) t (t + T) y with
  | Except.error e => Except.error e
  | Except.ok tr =>
      Except.ok (vecScale (1 / T) (vecSub ((tr.map Prod.snd).getLastD y) y))

/-- Fine-trajectory reconstruction (spec §4.6): for each accepted macro
point except the last, re-run the fast system over a window of one fast
period starting at that point; the windows are concatenated. -/
def reconstruct (F : Sys) (T : ℚ) :
    List (ℚ × StateVec) → Except SolveError (List (ℚ × StateVec))
  | [] => Except.ok []
  | p :: rest =>
      match rest with
      | [] => Except.ok []
      | _ :: _ =>
          match ivpCore (liftSys F) p.1 (p.1 + T) p.2 with
          | Except.error e => Except.error e
          | Except.ok w =>
              match reconstruct F T rest with
              | Except.error e => Except.error e
              | Except.ok tail => Except.ok (w ++ tail)

/-- Modelled from the spec: `polimi.envelope.envelope_full` (spec §4.6),
not under `src/`.  Builds the envelope right-hand side, drives the
fixed-step BDF integrator over it with macro-step `H`, reconstructs the
fine trajectory around each accepted macro point, and returns a bundle
holding the macro trajectory under `T`/`Z` and the fine one under `t`/`y`. -/
def envelope_full (F : Sys) (t0 tend : ℚ) (y0 : StateVec) (T H : ℚ)
    (order : Nat) : Except SolveError SolutionBundle :=
  match bdf (fun t y => _envelope_system t y F T) t0 tend y0 H order with
  | Except.error e => Except.error e
  | Except.ok mac =>
      match reconstruct F T (mac.t.zip mac.y) with
      | Except.error e => Except.error e
      | Except.ok fine =>
          Except.ok { t := t0 :: fine.map Prod.fst
                    , y := y0 :: fine.map Prod.snd
                    , t_events := []
                    , T := mac.t
                    , Z := mac.y }

/-- The step relation of the forward-Euler loop (spec §4.2): the next
time advances by `H` but is clipped at `tend`, and the next state is the
Euler update with the actually taken step size. -/
def feRel (f : Sys) (tend H : ℚ) (p q : ℚ × StateVec) : Prop :=
  q.1 = min (p.1 + H) tend ∧
  q.2 = vecAdd p.2 (vecScale (q.1 - p.1) (f p.1 p.2))

/-- One accepted forward-Euler step, as recorded in an integrator's
output: the (possibly fallible) right-hand side evaluated successfully
at the step's origin and produced exactly this step. -/
def feStepOk (G : FSys) (tend H : ℚ) (p q : ℚ × StateVec) : Prop :=
  ∃ d, G p.1 p.2 = Except.ok d ∧ q.1 = min (p.1 + H) tend ∧
    q.2 = vecAdd p.2 (vecScale (q.1 - p.1) d)

/-- One accepted step of the variable-step model: the implicit solve to
the step's target time succeeded and produced exactly this state. -/
def ivpStepOk (G : FSys) (p q : ℚ × StateVec) : Prop :=
  implicitStep G q.1 (q.1 - p.1) p.2 = Except.ok q.2

/-- The full record of a BDF run over a time grid: one accepted state
per grid time, each produced by a successful implicit BDF step from the
history accumulated so far — no time skipped, no failure dropped. -/
def bdfRun (G : FSys) (H : ℚ) (order : Nat) :
    List ℚ → List StateVec → List (ℚ × StateVec) → Prop
  | [], _, l => l = []
  | tn :: rest, hist, l =>
      ∃ y2 tail, l = (tn, y2) :: tail ∧
        bdfStep G tn H (min order hist.length) hist = Except.ok y2 ∧
        bdfRun G H order rest (y2 :: hist) tail

/-! ### Basic facts about the internal sub-solve grid -/

lemma uniformTail_eq (t0 t1 : ℚ) :
    uniformTail t0 t1 =
      [t0 + (t1 - t0) / 4, t0 + 2 * ((t1 - t0) / 4),
       t0 + 3 * ((t1 - t0) / 4), t0 + 4 * ((t1 - t0) / 4)] := by
  simp [uniformTail, NSUB, List.range_succ]
  norm_num

lemma uniformTail_mem_bounds {t0 t1 x : ℚ} (h : t0 < t1)
    (hx : x ∈ uniformTail t0 t1) : t0 < x ∧ x ≤ t1 := by
  have hd : 0 < (t1 - t0) / 4 := div_pos (by linarith) (by norm_num)
  rw [uniformTail_eq] at hx
  simp only [List.mem_cons, List.not_mem_nil, or_false] at hx
  rcases hx with hx | hx | hx | hx <;> subst hx <;> constructor <;> linarith

lemma uniformTail_chain (t0 t1 : ℚ) (h : t0 < t1) :
    List.Chain' (fun a b => a < b) (uniformTail t0 t1) := by
  have hd : 0 < (t1 - t0) / 4 := div_pos (by linarith) (by norm_num)
  rw [uniformTail_eq]
  refine List.chain'_cons.mpr ⟨by linarith, ?_⟩
  refine List.chain'_cons.mpr ⟨by linarith, ?_⟩
  refine List.chain'_cons.mpr ⟨by linarith, List.chain'_singleton _⟩

lemma uniformTail_getLast (t0 t1 : ℚ) :
    (uniformTail t0 t1).getLast? = some t1 := by
  rw [uniformTail_eq]
  simp [List.getLast?]
  ring

lemma uniformTail_head (t0 t1 : ℚ) :
    (uniformTail t0 t1).head? = some (t0 + (t1 - t0) / 4) := by
  rw [uniformTail_eq]; rfl

lemma uniformTail_ne_nil (t0 t1 : ℚ) : uniformTail t0 t1 ≠ [] := by
  rw [uniformTail_eq]; simp

/-- On success, the sub-solve loop visits exactly the requested times. -/
lemma ivpLoop_times (F : FSys) :
    ∀ (ts : List ℚ) (t : ℚ) (y : StateVec) (l : List (ℚ × StateVec)),
      ivpLoop F ts t y = Except.ok l → l.map Prod.fst = ts := by
  intro ts
  induction ts with
  | nil => intro t y l h; simp only [ivpLoop] at h; cases h; rfl
  | cons tn rest ih =>
      intro t y l h
      rw [ivpLoop] at h
      split at h
      · cases h
      · split at h
        · cases h
        · rename_i tail h2
          cases h
          simpa using ih tn _ tail h2

/-- On success, the nested sub-solve trajectory over `[t0, t1]` has
exactly the internal grid as its times; in particular its last time is
exactly `t1`. -/
lemma ivpCore_times {F : FSys} {t0 t1 : ℚ} {y0 : StateVec}
    {l : List (ℚ × StateVec)} (h : ivpCore F t0 t1 y0 = Except.ok l) :
    l.map Prod.fst = uniformTail t0 t1 :=
  ivpLoop_times F _ t0 y0 l h

/-! ### Event detection -/

/-- The root of the linear interpolant of a sign-changing panel lies
strictly inside the panel. -/
lemma root_bounds {t1 t2 ea eb : ℚ} (h12 : t1 < t2) (hs : ea * eb < 0) :
    t1 < (t1 * eb - t2 * ea) / (eb - ea) ∧ (t1 * eb - t2 * ea) / (eb - ea) < t2 := by
  rcases mul_neg_iff.mp hs with ⟨hea, heb⟩ | ⟨hea, heb⟩
  · have hden : eb - ea < 0 := by linarith
    constructor
    · rw [lt_div_iff_of_neg hden]; nlinarith
    · rw [div_lt_iff_of_neg hden]; nlinarith
  · have hden : 0 < eb - ea := by linarith
    constructor
    · rw [lt_div_iff₀ hden]; nlinarith
    · rw [div_lt_iff₀ hden]; nlinarith

/-- Every recorded crossing time lies strictly after the first sample
time of the scanned trajectory. -/
lemma crossings_lb (e : ℚ → StateVec → ℚ) :
    ∀ (l : List (ℚ × StateVec)),
      List.Chain' (fun p q : ℚ × StateVec => p.1 < q.1) l →
      ∀ x ∈ crossings e l, ∀ p, l.head? = some p → p.1 < x := by
  intro l
  induction l with
  | nil => intro _ x hx; cases hx
  | cons p tail ih =>
      intro hc x hx q hq
      cases hq
      cases tail with
      | nil => cases hx
      | cons r rest =>
          have h12 : p.1 < r.1 := (List.chain'_cons.mp hc).1
          have hcr : List.Chain' (fun p q : ℚ × StateVec => p.1 < q.1) (r :: rest) :=
            (List.chain'_cons.mp hc).2
          rw [crossings] at hx
          by_cases hs : e p.1 p.2 * e r.1 r.2 < 0
          · rw [if_pos hs] at hx
            rcases List.mem_cons.mp hx with hx | hx
            · subst hx; exact (root_bounds h12 hs).1
            · exact lt_trans h12 (ih hcr x hx r rfl)
          · rw [if_neg hs] at hx
            exact lt_trans h12 (ih hcr x hx r rfl)

/-- The recorded crossing times of a strictly increasing trajectory are
strictly increasing. -/
lemma crossings_chain (e : ℚ → StateVec → ℚ) :
    ∀ (l : List (ℚ × StateVec)),
      List.Chain' (fun p q : ℚ × StateVec => p.1 < q.1) l →
      List.Chain' (fun a b : ℚ => a < b) (crossings e l) := by
  intro l
  induction l with
  | nil => intro _; exact List.chain'_nil
  | cons p tail ih =>
      intro hc
      cases tail with
      | nil => exact List.chain'_nil
      | cons r rest =>
          have h12 : p.1 < r.1 := (List.chain'_cons.mp hc).1
          have hcr : List.Chain' (fun p q : ℚ × StateVec => p.1 < q.1) (r :: rest) :=
            (List.chain'_cons.mp hc).2
          rw [crossings]
          by_cases hs : e p.1 p.2 * e r.1 r.2 < 0
          · rw [if_pos hs]
            refine List.chain'_cons'.mpr ⟨?_, ih hcr⟩
            intro z hz
            have hzmem : z ∈ crossings e (r :: rest) := by
              exact List.mem_of_mem_head? hz
            have : r.1 < z := crossings_lb e (r :: rest) hcr z hzmem r rfl
            exact lt_trans (root_bounds h12 hs).2 this
          · rw [if_neg hs]
            exact ih hcr

/-- On success the trajectory of the sub-solve, including its initial
point, has strictly increasing times. -/
lemma traj_chain {F : FSys} {t0 t1 : ℚ} {y0 : StateVec}
    {pairs : List (ℚ × StateVec)} (h01 : t0 < t1)
    (h : ivpCore F t0 t1 y0 = Except.ok pairs) :
    List.Chain' (fun p q : ℚ × StateVec => p.1 < q.1) ((t0, y0) :: pairs) := by
  have ht := ivpCore_times h
  refine List.chain'_cons'.mpr ⟨?_, ?_⟩
  · intro q hq
    have : (pairs.head?).map Prod.fst = (uniformTail t0 t1).head? := by
      rw [← ht, List.head?_map]
    rw [hq, uniformTail_head] at this
    have hq1 : q.1 = t0 + (t1 - t0) / 4 := by
      simpa using this
    have hd : 0 < (t1 - t0) / 4 := div_pos (by linarith) (by norm_num)
    simp only [hq1]
    linarith
  · have := uniformTail_chain t0 t1 h01
    rw [← ht] at this
    exact (List.chain'_map Prod.fst).mp this

/-- C1: the envelope right-hand side integrates the fast system over
exactly `[t, t + T]` (the sub-solve's last time is exactly `t + T`,
never snapped or rounded) and returns the finite difference
`(y(t+T) - y) / T`. -/
theorem envelope_system_finite_difference (F : Sys) (T t : ℚ) (y : StateVec)
    (tr : List (ℚ × StateVec)) (_hT : 0 < T)
    (h : ivpCore (liftSys F) t (t + T) y = Except.ok tr) :
    _envelope_system t y F T =
        Except.ok (vecScale (1 / T) (vecSub ((tr.map Prod.snd).getLastD y) y)) ∧
      (tr.map Prod.fst).getLast? = some (t + T) := by
  constructor
  · rw [_envelope_system, h]
  · rw [ivpCore_times h, uniformTail_getLast]

/-! ### The forward-Euler loop -/

/-- Once the end of the interval is reached the loop stops. -/
lemma feLoop_at_end (F : FSys) (tend H t : ℚ) (y : StateVec) (h : tend ≤ t) :
    ∀ fuel, feLoop F tend H fuel t y = Except.ok [] := by
  intro fuel
  cases fuel with
  | zero => rfl
  | succ n => rw [feLoop, if_pos h]

/-- One unfolding of the loop when the end is not yet reached and the
right-hand side evaluates successfully. -/
lemma feLoop_step (F : FSys) (tend H : ℚ) (n : Nat) (t : ℚ) (y d : StateVec)
    (hnle : ¬ tend ≤ t) (hF : F t y = Except.ok d) :
    feLoop F tend H (n + 1) t y =
      match feLoop F tend H n (if t + H ≤ tend then t + H else tend)
          (vecAdd y (vecScale ((if t + H ≤ tend then t + H else tend) - t) d)) with
      | Except.error e => Except.error e
      | Except.ok tail =>
          Except.ok ((if t + H ≤ tend then t + H else tend,
            vecAdd y (vecScale ((if t + H ≤ tend then t + H else tend) - t) d)) :: tail) := by
  rw [feLoop, if_neg hnle, hF]

/-- With a pure right-hand side the loop always succeeds, follows the
Euler recurrence with clipping, and its last time is exactly `tend`. -/
lemma feLoop_spec (f : Sys) (tend H : ℚ) (hH : 0 < H) :
    ∀ (fuel : Nat) (t : ℚ) (y : StateVec), t < tend →
      (⌈(tend - t) / H⌉).toNat ≤ fuel →
      ∃ l, feLoop (liftSys f) tend H fuel t y = Except.ok l ∧
        l ≠ [] ∧
        List.Chain' (feRel f tend H) ((t, y) :: l) ∧
        (l.map Prod.fst).getLast? = some tend := by
  intro fuel
  induction fuel with
  | zero =>
      intro t y hlt hfuel
      exfalso
      have h1 : 0 < ⌈(tend - t) / H⌉ :=
        Int.ceil_pos.mpr (div_pos (by linarith) hH)
      omega
  | succ n ih =>
      intro t y hlt hfuel
      have hnle : ¬ tend ≤ t := not_le.mpr hlt
      by_cases hstep : t + H < tend
      · have hif : (if t + H ≤ tend then t + H else tend) = t + H :=
          if_pos (le_of_lt hstep)
        have hceil : ⌈(tend - (t + H)) / H⌉ = ⌈(tend - t) / H⌉ - 1 := by
          rw [show tend - (t + H) = tend - t - H by ring, sub_div,
            div_self (ne_of_gt hH)]
          exact Int.ceil_sub_one _
        have h2 : (1 : ℤ) < ⌈(tend - t) / H⌉ := by
          apply Int.lt_ceil.mpr
          rw [lt_div_iff₀ hH]
          push_cast
          linarith
        have hnext : (⌈(tend - (t + H)) / H⌉).toNat ≤ n := by
          rw [hceil]; omega
        obtain ⟨l', hok, hne, hchain, hlast⟩ :=
          ih (t + H) (vecAdd y (vecScale (t + H - t) (f t y))) hstep hnext
        rw [feLoop_step (liftSys f) tend H n t y (f t y) hnle rfl, hif, hok]
        refine ⟨_, rfl, by simp, ?_, ?_⟩
        · refine List.chain'_cons.mpr ⟨⟨(min_eq_left (le_of_lt hstep)).symm, ?_⟩, hchain⟩
          simp
        · cases l' with
          | nil => exact absurd rfl hne
          | cons c l'' =>
              simpa only [List.map_cons, List.getLast?_cons_cons] using hlast
      · have hA : tend ≤ t + H := not_lt.mp hstep
        have hif : (if t + H ≤ tend then t + H else tend) = tend := by
          split
          · linarith
          · rfl
        rw [feLoop_step (liftSys f) tend H n t y (f t y) hnle rfl, hif,
          feLoop_at_end (liftSys f) tend H tend _ le_rfl n]
        refine ⟨_, rfl, by simp, ?_, by simp⟩
        refine List.chain'_cons.mpr ⟨⟨(min_eq_right hA).symm, ?_⟩, List.chain'_singleton _⟩
        simp

/-- Whatever fallible right-hand side is supplied, a successful run of
the loop has strictly increasing times, none past `tend`. -/
lemma feLoop_mono (F : FSys) (tend H : ℚ) (hH : 0 < H) :
    ∀ (fuel : Nat) (t : ℚ) (y : StateVec) (l : List (ℚ × StateVec)),
      feLoop F tend H fuel t y = Except.ok l →
      List.Chain' (fun p q : ℚ × StateVec => p.1 < q.1) ((t, y) :: l) ∧
      ∀ p ∈ l, p.1 ≤ tend := by
  intro fuel
  induction fuel with
  | zero =>
      intro t y l h
      cases h
      simp
  | succ n ih =>
      intro t y l h
      simp only [feLoop] at h
      split at h
      · cases h; simp
      · rename_i hnle
        split at h
        · cases h
        · rename_i d hF
          split at h
          · cases h
          · rename_i tail htail
            cases h
            have hlt : t < tend := not_le.mp hnle
            have ht2lt : t < (if t + H ≤ tend then t + H else tend) := by
              split <;> linarith
            have ht2le : (if t + H ≤ tend then t + H else tend) ≤ tend := by
              split
              · assumption
              · exact le_rfl
            obtain ⟨hchain, hbound⟩ := ih _ _ tail htail
            refine ⟨List.chain'_cons.mpr ⟨ht2lt, hchain⟩, ?_⟩
            intro p hp
            rcases List.mem_cons.mp hp with hp | hp
            · rw [hp]; exact ht2le
            · exact hbound p hp

/-- Zipping the projections of a pair list recovers the list. -/
lemma zip_map_fst_snd {α β : Type _} :
    ∀ (l : List (α × β)), (l.map Prod.fst).zip (l.map Prod.snd) = l := by
  intro l
  induction l with
  | nil => rfl
  | cons p tail ih => simp [ih]

/-- C3: forward Euler follows the recurrence
`y(n+1) = y(n) + h·F(t(n), y(n))`, `t(n+1) = t(n) + H` clipped at `tend`,
and the last output time is exactly `tend`. -/
theorem forward_euler_recurrence (f : Sys) (t0 tend : ℚ) (y0 : StateVec) (H : ℚ)
    (h1 : t0 < tend) (h2 : 0 < H) :
    ∃ b, forward_euler (liftSys f) t0 tend y0 H = Except.ok b ∧
      b.t.head? = some t0 ∧ b.y.head? = some y0 ∧
      List.Chain' (feRel f tend H) (b.t.zip b.y) ∧
      b.t.getLast? = some tend := by
  obtain ⟨l, hok, hne, hchain, hlast⟩ :=
    feLoop_spec f tend H h2 (feFuel t0 tend H) t0 y0 h1 (by rw [feFuel]; omega)
  have hforward : forward_euler (liftSys f) t0 tend y0 H =
      Except.ok ⟨t0 :: l.map Prod.fst, y0 :: l.map Prod.snd, [], [], []⟩ := by
    rw [forward_euler, if_neg (not_le.mpr h2), hok]
  refine ⟨_, hforward, rfl, rfl, ?_, ?_⟩
  · show List.Chain' _ ((t0 :: l.map Prod.fst).zip (y0 :: l.map Prod.snd))
    rw [List.zip_cons_cons, zip_map_fst_snd]
    exact hchain
  · show (t0 :: l.map Prod.fst).getLast? = some tend
    cases l with
    | nil => exact absurd rfl hne
    | cons c l'' =>
        simpa only [List.map_cons, List.getLast?_cons_cons] using hlast

/-- C5: an invalid configuration — non-positive step for either
fixed-step integrator, or an order outside 1..4 for BDF — is rejected
with a descriptive configuration error before any stepping begins, and
no trajectory is produced (the result carries no bundle at all). -/
theorem invalid_config_rejected :
    (∀ (F : FSys) (t0 tend : ℚ) (y0 : StateVec) (H : ℚ), H ≤ 0 →
        forward_euler F t0 tend y0 H = Except.error SolveError.nonPositiveStep) ∧
    (∀ (F : FSys) (t0 tend : ℚ) (y0 : StateVec) (H : ℚ) (order : Nat), H ≤ 0 →
        bdf F t0 tend y0 H order = Except.error SolveError.nonPositiveStep) ∧
    (∀ (F : FSys) (t0 tend : ℚ) (y0 : StateVec) (H : ℚ) (order : Nat), 0 < H →
        order < 1 ∨ 4 < order →
        bdf F t0 tend y0 H order = Except.error SolveError.badOrder) := by
  refine ⟨?_, ?_, ?_⟩
  · intro F t0 tend y0 H h
    rw [forward_euler, if_pos h]
  · intro F t0 tend y0 H order h
    rw [bdf, if_pos h]
  · intro F t0 tend y0 H order hH hord
    rw [bdf, if_neg (not_le.mpr hH), if_pos hord]

/-! ### The BDF time grid -/

/-- Consecutive points of the BDF grid, including the initial time, are
spaced exactly `H` apart. -/
lemma bdfGrid_spacing (t0 tend H : ℚ) :
    List.Chain' (fun a b : ℚ => b - a = H) (t0 :: bdfTimes t0 tend H) := by
  rw [bdfTimes]
  cases hn : bdfSteps t0 tend H with
  | zero => simp
  | succ m =>
      refine List.chain'_cons'.mpr ⟨?_, ?_⟩
      · intro b hb
        rw [List.range_succ_eq_map, List.map_cons, List.head?_cons] at hb
        cases hb
        push_cast
        ring
      · refine (List.chain'_map _).mpr ((List.chain'_range_succ _ _).mpr ?_)
        intro k _
        push_cast
        ring

/-- Every point of the BDF grid stays within the requested end time. -/
lemma bdfTimes_le {t0 tend H : ℚ} (hH : 0 < H) (hle : t0 ≤ tend) :
    ∀ x ∈ bdfTimes t0 tend H, x ≤ tend := by
  intro x hx
  rw [bdfTimes] at hx
  obtain ⟨i, hi, rfl⟩ := List.mem_map.mp hx
  rw [List.mem_range] at hi
  have hfl : (0 : ℤ) ≤ ⌊(tend - t0) / H⌋ :=
    Int.floor_nonneg.mpr (div_nonneg (by linarith) hH.le)
  have hZ : (i : ℤ) + 1 ≤ ⌊(tend - t0) / H⌋ := by
    rw [bdfSteps] at hi
    omega
  have hq : ((i : ℚ) + 1) ≤ (tend - t0) / H := by
    calc ((i : ℚ) + 1) ≤ (⌊(tend - t0) / H⌋ : ℚ) := by exact_mod_cast hZ
      _ ≤ (tend - t0) / H := Int.floor_le _
  have := mul_le_mul_of_nonneg_right hq hH.le
  rw [div_mul_cancel₀ (tend - t0) (ne_of_gt hH)] at this
  linarith

/-- When the horizon is a whole number of macro-steps, the BDF grid ends
exactly at `tend`. -/
lemma bdfGrid_last {t0 tend H : ℚ} (hH : 0 < H) {k : Nat}
    (hk : tend - t0 = (k : ℚ) * H) (hk1 : 1 ≤ k) :
    (t0 :: bdfTimes t0 tend H).getLast? = some tend := by
  have hsteps : bdfSteps t0 tend H = k := by
    rw [bdfSteps, hk, mul_div_assoc, div_self (ne_of_gt hH), mul_one]
    simp
  obtain ⟨m, rfl⟩ : ∃ m, k = m + 1 := ⟨k - 1, by omega⟩
  rw [bdfTimes, hsteps, List.range_succ, List.map_append]
  simp only [List.map_cons, List.map_nil]
  rw [← List.cons_append, List.getLast?_concat]
  congr 1
  push_cast at hk ⊢
  linarith

/-- On success, the BDF loop visits exactly the requested times. -/
lemma bdfLoop_times (F : FSys) (H : ℚ) (order : Nat) :
    ∀ (ts : List ℚ) (hist : List StateVec) (l : List (ℚ × StateVec)),
      bdfLoop F H order ts hist = Except.ok l → l.map Prod.fst = ts := by
  intro ts
  induction ts with
  | nil => intro hist l h; cases h; rfl
  | cons tn rest ih =>
      intro hist l h
      rw [bdfLoop] at h
      split at h
      · cases h
      · split at h
        · cases h
        · rename_i tail h2
          cases h
          simpa using ih _ tail h2

/-- Dissecting a successful BDF solve: the validation passed and the
bundle is the initial point followed by the loop output. -/
lemma bdf_ok_shape {F : FSys} {t0 tend : ℚ} {y0 : StateVec} {H : ℚ}
    {order : Nat} {b : SolutionBundle}
    (h : bdf F t0 tend y0 H order = Except.ok b) :
    0 < H ∧ 1 ≤ order ∧ order ≤ 4 ∧
      ∃ pairs, bdfLoop F H order (bdfTimes t0 tend H) [y0] = Except.ok pairs ∧
        b.t = t0 :: pairs.map Prod.fst ∧ b.y = y0 :: pairs.map Prod.snd ∧
        b.t_events = [] ∧ b.T = [] ∧ b.Z = [] := by
  rw [bdf] at h
  split at h
  · cases h
  · split at h
    · cases h
    · rename_i hH hord
      split at h
      · cases h
      · rename_i pairs hp
        cases h
        push_neg at hord
        exact ⟨not_le.mp hH, by omega, by omega, pairs, hp, rfl, rfl, rfl, rfl, rfl⟩

/-- The element reported by `getLast?` belongs to the list. -/
lemma mem_of_getLast? {α : Type _} {l : List α} {x : α}
    (h : l.getLast? = some x) : x ∈ l := by
  have hx : x ∈ l.getLast? := Option.mem_def.mpr h
  obtain ⟨hne, hx2⟩ := List.mem_getLast?_eq_getLast hx
  subst hx2
  exact List.getLast_mem hne

/-- A successful window sub-solve over `[a, b]` has strictly increasing
times, all inside `(a, b]`. -/
lemma ivp_window {f : Sys} {a b : ℚ} {z : StateVec} {w : List (ℚ × StateVec)}
    (hab : a < b) (hw : ivpCore (liftSys f) a b z = Except.ok w) :
    List.Chain' (fun p q : ℚ × StateVec => p.1 < q.1) w ∧
    ∀ p ∈ w, a < p.1 ∧ p.1 ≤ b := by
  have ht := ivpCore_times hw
  constructor
  · have hc := uniformTail_chain a b hab
    rw [← ht] at hc
    exact (List.chain'_map Prod.fst).mp hc
  · intro p hp
    have hmem : p.1 ∈ uniformTail a b := by
      rw [← ht]
      exact List.mem_map_of_mem Prod.fst hp
    exact uniformTail_mem_bounds hab hmem

/-- In a chain whose consecutive times are at least `T` apart, the head
time is at most the last time. -/
lemma gapChain_head_le_last {T : ℚ} (hT : 0 < T) :
    ∀ (l : List (ℚ × StateVec)) (p z : ℚ × StateVec),
      List.Chain' (fun p q : ℚ × StateVec => p.1 + T ≤ q.1) l →
      l.head? = some p → l.getLast? = some z → p.1 ≤ z.1 := by
  intro l
  induction l with
  | nil => intro p z _ hp; cases hp
  | cons a tail ih =>
      intro p z hc hp hz
      cases hp
      cases tail with
      | nil =>
          cases hz
          exact le_rfl
      | cons b rest =>
          rw [List.getLast?_cons_cons] at hz
          have hab : a.1 + T ≤ b.1 := (List.chain'_cons.mp hc).1
          have := ih b z (List.chain'_cons.mp hc).2 rfl hz
          linarith

/-- The reconstructed fine trajectory of a macro chain whose points are
at least one period apart: its times increase strictly, stay strictly
after the first macro time and never pass the last macro time. -/
lemma reconstruct_mono (f : Sys) (T : ℚ) (hT : 0 < T) :
    ∀ (l fine : List (ℚ × StateVec)),
      reconstruct f T l = Except.ok fine →
      List.Chain' (fun p q : ℚ × StateVec => p.1 + T ≤ q.1) l →
      List.Chain' (fun p q : ℚ × StateVec => p.1 < q.1) fine ∧
      ∀ x ∈ fine, (∀ a, l.head? = some a → a.1 < x.1) ∧
        ∀ z, l.getLast? = some z → x.1 ≤ z.1 := by
  intro l
  induction l with
  | nil =>
      intro fine h _
      cases h
      exact ⟨List.chain'_nil, by simp⟩
  | cons p rest ih =>
      intro fine h hchain
      cases rest with
      | nil =>
          simp only [reconstruct] at h
          cases h
          exact ⟨List.chain'_nil, by simp⟩
      | cons q rest2 =>
          simp only [reconstruct] at h
          split at h
          · cases h
          · rename_i w hw
            split at h
            · cases h
            · rename_i tail htail
              cases h
              have hpq : p.1 + T ≤ q.1 := (List.chain'_cons.mp hchain).1
              have hchain2 := (List.chain'_cons.mp hchain).2
              have hab : p.1 < p.1 + T := by linarith
              obtain ⟨hwchain, hwmem⟩ := ivp_window hab hw
              obtain ⟨htchain, htmem⟩ := ih tail htail hchain2
              constructor
              · refine List.Chain'.append hwchain htchain ?_
                intro x hx y hy
                have hxw : x ∈ w := mem_of_getLast? hx
                have hyt : y ∈ tail := List.mem_of_mem_head? hy
                have hx2 : x.1 ≤ p.1 + T := (hwmem x hxw).2
                have hy2 : q.1 < y.1 := (htmem y hyt).1 q rfl
                calc x.1 ≤ p.1 + T := hx2
                  _ ≤ q.1 := hpq
                  _ < y.1 := hy2
              · intro x hx
                rcases List.mem_append.mp hx with hx | hx
                · refine ⟨?_, ?_⟩
                  · intro a ha
                    cases ha
                    exact (hwmem x hx).1
                  · intro z hz
                    rw [List.getLast?_cons_cons] at hz
                    have hqz : q.1 ≤ z.1 :=
                      gapChain_head_le_last hT (q :: rest2) q z hchain2 rfl hz
                    have := (hwmem x hx).2
                    linarith
                · obtain ⟨hxa, hxz⟩ := htmem x hx
                  refine ⟨?_, ?_⟩
                  · intro a ha
                    cases ha
                    have : q.1 < x.1 := hxa q rfl
                    linarith
                  · intro z hz
                    rw [List.getLast?_cons_cons] at hz
                    exact hxz z hz

/-- Dissecting a successful envelope solve: the macro solve and the fine
reconstruction both succeeded and fill the bundle's fields. -/
lemma envelope_full_ok_shape {F : Sys} {t0 tend : ℚ} {y0 : StateVec}
    {T H : ℚ} {order : Nat} {b : SolutionBundle}
    (h : envelope_full F t0 tend y0 T H order = Except.ok b) :
    ∃ mac fine,
      bdf (fun t y => _envelope_system t y F T) t0 tend y0 H order = Except.ok mac ∧
      reconstruct F T (mac.t.zip mac.y) = Except.ok fine ∧
      b.t = t0 :: fine.map Prod.fst ∧ b.y = y0 :: fine.map Prod.snd ∧
      b.T = mac.t ∧ b.Z = mac.y ∧ b.t_events = [] := by
  rw [envelope_full] at h
  split at h
  · cases h
  · rename_i mac hmac
    split at h
    · cases h
    · rename_i fine hfine
      cases h
      exact ⟨mac, fine, hmac, hfine, rfl, rfl, rfl, rfl, rfl⟩

/-- C2: a successful `envelope_full` run returns a bundle holding the
macro (envelope) trajectory under `T`/`Z` — the output of the fixed-step
BDF drive of the envelope right-hand side — and the reconstructed fine
trajectory under `t`/`y`, obtained by re-integrating the fast system in
a window of one period around each accepted macro point. -/
theorem envelope_full_bundle_structure (F : Sys) (t0 tend : ℚ) (y0 : StateVec)
    (T H : ℚ) (m order : Nat) (b : SolutionBundle)
    (_hT : 0 < T) (_hm : H = (m : ℚ) * T) (_hm1 : 1 ≤ m)
    (h : envelope_full F t0 tend y0 T H order = Except.ok b) :
    ∃ mac fine,
      bdf (fun t y => _envelope_system t y F T) t0 tend y0 H order = Except.ok mac ∧
      reconstruct F T (mac.t.zip mac.y) = Except.ok fine ∧
      b.T = mac.t ∧ b.Z = mac.y ∧
      b.t = t0 :: fine.map Prod.fst ∧ b.y = y0 :: fine.map Prod.snd := by
  obtain ⟨mac, fine, hmac, hfine, ht, hy, hT2, hZ, _⟩ := envelope_full_ok_shape h
  exact ⟨mac, fine, hmac, hfine, hT2, hZ, ht, hy⟩

/-- Forward Euler bundle times: strictly increasing, never past `tend`. -/
lemma fe_mono_bundle {F : FSys} {t0 tend : ℚ} {y0 : StateVec} {H : ℚ}
    {b : SolutionBundle} (h0 : t0 ≤ tend) (hH : 0 < H)
    (h : forward_euler F t0 tend y0 H = Except.ok b) :
    List.Chain' (fun a c : ℚ => a < c) b.t ∧ ∀ x ∈ b.t, x ≤ tend := by
  rw [forward_euler] at h
  split at h
  · cases h
  · split at h
    · cases h
    · rename_i pairs hp
      cases h
      obtain ⟨hchain, hbound⟩ := feLoop_mono F tend H hH _ t0 y0 pairs hp
      constructor
      · have := (List.chain'_map Prod.fst).mpr hchain
        simpa using this
      · intro x hx
        rcases List.mem_cons.mp hx with hx | hx
        · rw [hx]; exact h0
        · obtain ⟨p, hpmem, rfl⟩ := List.mem_map.mp hx
          exact hbound p hpmem

/-- BDF bundle times: strictly increasing, never past `tend`. -/
lemma bdf_mono_bundle {F : FSys} {t0 tend : ℚ} {y0 : StateVec} {H : ℚ}
    {order : Nat} {b : SolutionBundle} (h0 : t0 ≤ tend)
    (h : bdf F t0 tend y0 H order = Except.ok b) :
    List.Chain' (fun a c : ℚ => a < c) b.t ∧ ∀ x ∈ b.t, x ≤ tend := by
  obtain ⟨hH, _, _, pairs, hp, ht, _, _, _, _⟩ := bdf_ok_shape h
  have htimes := bdfLoop_times F H order _ _ pairs hp
  rw [ht, htimes]
  constructor
  · exact (bdfGrid_spacing t0 tend H).imp (fun a c hac => by linarith)
  · intro x hx
    rcases List.mem_cons.mp hx with hx | hx
    · rw [hx]; exact h0
    · exact bdfTimes_le hH h0 x hx

/-- Variable-step model bundle times: strictly increasing, exactly up to
the end time. -/
lemma ivp_mono_bundle {F : FSys} {t0 t1 : ℚ} {y0 : StateVec}
    {events : List (ℚ → StateVec → ℚ)} {b : SolutionBundle} (h0 : t0 < t1)
    (h : solve_ivp F t0 t1 y0 events = Except.ok b) :
    List.Chain' (fun a c : ℚ => a < c) b.t ∧ ∀ x ∈ b.t, x ≤ t1 := by
  rw [solve_ivp] at h
  split at h
  · cases h
  · rename_i pairs hp
    cases h
    constructor
    · have := (List.chain'_map Prod.fst).mpr (traj_chain h0 hp)
      simpa using this
    · intro x hx
      rcases List.mem_cons.mp hx with hx | hx
      · rw [hx]; exact le_of_lt h0
      · obtain ⟨p, hpmem, rfl⟩ := List.mem_map.mp hx
        have : p.1 ∈ uniformTail t0 t1 := by
          rw [← ivpCore_times hp]
          exact List.mem_map_of_mem Prod.fst hpmem
        exact (uniformTail_mem_bounds h0 this).2

/-- Envelope bundle fine times: strictly increasing, never past `tend`. -/
lemma env_mono_bundle {F : Sys} {t0 tend T H : ℚ} {y0 : StateVec}
    {m order : Nat} {b : SolutionBundle} (h0 : t0 ≤ tend) (hT : 0 < T)
    (hm : H = (m : ℚ) * T) (hm1 : 1 ≤ m)
    (h : envelope_full F t0 tend y0 T H order = Except.ok b) :
    List.Chain' (fun a c : ℚ => a < c) b.t ∧ ∀ x ∈ b.t, x ≤ tend := by
  obtain ⟨mac, fine, hmac, hfine, ht, _, _, _, _⟩ := envelope_full_ok_shape h
  obtain ⟨hH, _, _, pairs, hp, hmt, hmy, _, _, _⟩ := bdf_ok_shape hmac
  have htimes := bdfLoop_times _ H order _ _ pairs hp
  have hTH : T ≤ H := by
    have hm1Q : (1 : ℚ) ≤ (m : ℚ) := by exact_mod_cast hm1
    rw [hm]; nlinarith
  have hzip : mac.t.zip mac.y = (t0, y0) :: pairs := by
    rw [hmt, hmy, List.zip_cons_cons, zip_map_fst_snd]
  have hgap : List.Chain' (fun p q : ℚ × StateVec => p.1 + T ≤ q.1)
      ((t0, y0) :: pairs) := by
    have hsp := bdfGrid_spacing t0 tend H
    rw [← htimes] at hsp
    have hsp2 : List.Chain' (fun a c : ℚ => c - a = H)
        (((t0, y0) :: pairs).map Prod.fst) := by simpa using hsp
    exact ((List.chain'_map Prod.fst).mp hsp2).imp (fun p q hpq => by linarith)
  rw [hzip] at hfine
  obtain ⟨hfchain, hfmem⟩ := reconstruct_mono F T hT _ fine hfine hgap
  rw [ht]
  constructor
  · refine List.chain'_cons'.mpr ⟨?_, (List.chain'_map Prod.fst).mpr hfchain⟩
    intro v hv
    rw [List.head?_map] at hv
    cases hx : fine.head? with
    | none => rw [hx] at hv; cases hv
    | some x =>
        rw [hx] at hv
        cases hv
        have hxf : x ∈ fine := List.mem_of_mem_head? (by rw [hx]; rfl)
        exact (hfmem x hxf).1 (t0, y0) rfl
  · intro v hv
    rcases List.mem_cons.mp hv with hv | hv
    · rw [hv]; exact h0
    · obtain ⟨x, hxf, rfl⟩ := List.mem_map.mp hv
      cases hgl : ((t0, y0) :: pairs).getLast? with
      | none =>
          rw [List.getLast?_eq_none_iff] at hgl
          cases hgl
      | some z =>
          have hx1 : x.1 ≤ z.1 := (hfmem x hxf).2 z hgl
          have hzmem : z ∈ (t0, y0) :: pairs := mem_of_getLast? hgl
          have hz1 : z.1 ≤ tend := by
            have hz2 : z.1 ∈ ((t0, y0) :: pairs).map Prod.fst :=
              List.mem_map_of_mem Prod.fst hzmem
            have hz3 : z.1 ∈ t0 :: pairs.map Prod.fst := by simpa using hz2
            rcases List.mem_cons.mp hz3 with h1 | h1
            · rw [h1]; exact h0
            · rw [htimes] at h1
              exact bdfTimes_le hH h0 _ h1
          linarith

/-- C4: every bundle produced by any of the integrators on a proper
interval has strictly increasing times whose final entry never exceeds
the requested end time. -/
theorem integrator_monotone_time :
    (∀ (F : FSys) (t0 tend : ℚ) (y0 : StateVec) (H : ℚ) (b : SolutionBundle),
        t0 < tend → 0 < H → forward_euler F t0 tend y0 H = Except.ok b →
        List.Chain' (fun a c : ℚ => a < c) b.t ∧ ∀ x ∈ b.t, x ≤ tend) ∧
    (∀ (F : FSys) (t0 tend : ℚ) (y0 : StateVec) (H : ℚ) (order : Nat)
        (b : SolutionBundle), t0 < tend →
        bdf F t0 tend y0 H order = Except.ok b →
        List.Chain' (fun a c : ℚ => a < c) b.t ∧ ∀ x ∈ b.t, x ≤ tend) ∧
    (∀ (F : FSys) (t0 t1 : ℚ) (y0 : StateVec)
        (events : List (ℚ → StateVec → ℚ)) (b : SolutionBundle), t0 < t1 →
        solve_ivp F t0 t1 y0 events = Except.ok b →
        List.Chain' (fun a c : ℚ => a < c) b.t ∧ ∀ x ∈ b.t, x ≤ t1) ∧
    (∀ (F : Sys) (t0 tend T H : ℚ) (y0 : StateVec) (m order : Nat)
        (b : SolutionBundle), t0 < tend → 0 < T → H = (m : ℚ) * T → 1 ≤ m →
        envelope_full F t0 tend y0 T H order = Except.ok b →
        List.Chain' (fun a c : ℚ => a < c) b.t ∧ ∀ x ∈ b.t, x ≤ tend) := by
  refine ⟨?_, ?_, ?_, ?_⟩
  · intro F t0 tend y0 H b h0 hH h
    exact fe_mono_bundle (le_of_lt h0) hH h
  · intro F t0 tend y0 H order b h0 h
    exact bdf_mono_bundle (le_of_lt h0) h
  · intro F t0 t1 y0 events b h0 h
    exact ivp_mono_bundle h0 h
  · intro F t0 tend T H y0 m order b h0 hT hm hm1 h
    exact env_mono_bundle (le_of_lt h0) hT hm hm1 h

/-! ### Per-step success records of the integrators -/

/-- Taking one (non-final) step leaves enough fuel for the rest. -/
lemma ceil_fuel_dec {t tend H : ℚ} (hH : 0 < H) (hstep : t + H < tend) {n : Nat}
    (hfuel : (⌈(tend - t) / H⌉).toNat ≤ n + 1) :
    (⌈(tend - (t + H)) / H⌉).toNat ≤ n := by
  have hceil : ⌈(tend - (t + H)) / H⌉ = ⌈(tend - t) / H⌉ - 1 := by
    rw [show tend - (t + H) = tend - t - H by ring, sub_div,
      div_self (ne_of_gt hH)]
    exact Int.ceil_sub_one _
  have h2 : (1 : ℤ) < ⌈(tend - t) / H⌉ := by
    apply Int.lt_ceil.mpr
    rw [lt_div_iff₀ hH]
    push_cast
    linarith
  rw [hceil]
  omega

/-- Every consecutive pair of a successful forward-Euler run was
produced by a successful right-hand-side evaluation: a failing
evaluation anywhere in the run makes success impossible. -/
lemma feLoop_stepOk (F : FSys) (tend H : ℚ) :
    ∀ (fuel : Nat) (t : ℚ) (y : StateVec) (l : List (ℚ × StateVec)),
      feLoop F tend H fuel t y = Except.ok l →
      List.Chain' (feStepOk F tend H) ((t, y) :: l) := by
  intro fuel
  induction fuel with
  | zero =>
      intro t y l h
      cases h
      simp
  | succ n ih =>
      intro t y l h
      simp only [feLoop] at h
      split at h
      · cases h; simp
      · split at h
        · cases h
        · rename_i d hF
          split at h
          · cases h
          · rename_i tail htail
            cases h
            exact List.chain'_cons.mpr
              ⟨⟨d, hF, (min_def _ _).symm, rfl⟩, ih _ _ tail htail⟩

/-- With adequate fuel, a successful forward-Euler run is never
truncated early: its last time is exactly `tend`, whichever fallible
right-hand side is integrated. -/
lemma feLoop_ok_last (F : FSys) (tend H : ℚ) (hH : 0 < H) :
    ∀ (fuel : Nat) (t : ℚ) (y : StateVec) (l : List (ℚ × StateVec)),
      t < tend → (⌈(tend - t) / H⌉).toNat ≤ fuel →
      feLoop F tend H fuel t y = Except.ok l →
      (l.map Prod.fst).getLast? = some tend := by
  intro fuel
  induction fuel with
  | zero =>
      intro t y l hlt hfuel _
      exfalso
      have h1 : 0 < ⌈(tend - t) / H⌉ :=
        Int.ceil_pos.mpr (div_pos (by linarith) hH)
      omega
  | succ n ih =>
      intro t y l hlt hfuel h
      have hnle : ¬ tend ≤ t := not_le.mpr hlt
      simp only [feLoop] at h
      rw [if_neg hnle] at h
      by_cases hstep : t + H < tend
      · have hif : (if t + H ≤ tend then t + H else tend) = t + H :=
          if_pos (le_of_lt hstep)
        split at h
        · cases h
        · rename_i d hF
          rw [hif] at h
          split at h
          · cases h
          · rename_i tail htail
            cases h
            have hlast := ih (t + H) _ tail hstep (ceil_fuel_dec hH hstep hfuel) htail
            cases tail with
            | nil => simp at hlast
            | cons c l2 =>
                simpa only [List.map_cons, List.getLast?_cons_cons] using hlast
      · have hif : (if t + H ≤ tend then t + H else tend) = tend := by
          have hA : tend ≤ t + H := not_lt.mp hstep
          split
          · linarith
          · rfl
        split at h
        · cases h
        · rename_i d hF
          rw [hif, feLoop_at_end F tend H tend _ le_rfl n] at h
          cases h
          simp [List.getLast?]

/-- Every consecutive pair of a successful variable-step run was
produced by a successful implicit solve at its target time. -/
lemma ivpLoop_stepOk (F : FSys) :
    ∀ (ts : List ℚ) (t : ℚ) (y : StateVec) (l : List (ℚ × StateVec)),
      ivpLoop F ts t y = Except.ok l →
      List.Chain' (ivpStepOk F) ((t, y) :: l) := by
  intro ts
  induction ts with
  | nil =>
      intro t y l h
      cases h
      simp
  | cons tn rest ih =>
      intro t y l h
      rw [ivpLoop] at h
      split at h
      · cases h
      · rename_i y2 h1
        split at h
        · cases h
        · rename_i tail h2
          cases h
          exact List.chain'_cons.mpr ⟨h1, ih tn _ tail h2⟩

/-- A successful BDF solve is a full run record: one accepted state per
grid time, each from a successful implicit step over the accumulated
history — no grid time skipped, no failed step dropped. -/
lemma bdfLoop_run (F : FSys) (H : ℚ) (order : Nat) :
    ∀ (ts : List ℚ) (hist : List StateVec) (l : List (ℚ × StateVec)),
      bdfLoop F H order ts hist = Except.ok l → bdfRun F H order ts hist l := by
  intro ts
  induction ts with
  | nil =>
      intro hist l h
      cases h
      rfl
  | cons tn rest ih =>
      intro hist l h
      rw [bdfLoop] at h
      split at h
      · cases h
      · rename_i y2 h1
        split at h
        · cases h
        · rename_i tail h2
          cases h
          exact ⟨y2, tail, rfl, h1, ih _ tail h2⟩

/-- Characterization of the recorded crossing times: `x` is recorded
for event `e` exactly when some adjacent pair of trajectory samples
changes the sign of `e` and `x` is the zero of the linear interpolant
of `e` on that panel. -/
lemma crossings_mem (e : ℚ → StateVec → ℚ) :
    ∀ (l : List (ℚ × StateVec)) (x : ℚ),
      x ∈ crossings e l ↔
        ∃ n p q, l[n]? = some p ∧ l[n + 1]? = some q ∧
          e p.1 p.2 * e q.1 q.2 < 0 ∧
          x = (p.1 * e q.1 q.2 - q.1 * e p.1 p.2) / (e q.1 q.2 - e p.1 p.2) := by
  intro l
  induction l with
  | nil =>
      intro x
      simp [crossings]
  | cons p tail ih =>
      intro x
      cases tail with
      | nil =>
          constructor
          · intro hx
            cases hx
          · rintro ⟨n, p', q', _, hq, _, _⟩
            rw [List.getElem?_cons_succ, List.getElem?_nil] at hq
            cases hq
      | cons q rest =>
          simp only [crossings]
          by_cases hs : e p.1 p.2 * e q.1 q.2 < 0
          · rw [if_pos hs]
            constructor
            · intro hx
              rcases List.mem_cons.mp hx with hx | hx
              · refine ⟨0, p, q, List.getElem?_cons_zero, ?_, hs, hx⟩
                rw [List.getElem?_cons_succ]
                exact List.getElem?_cons_zero
              · obtain ⟨n, p', q', h1, h2, h3, h4⟩ := (ih x).mp hx
                refine ⟨n + 1, p', q', ?_, ?_, h3, h4⟩
                · rw [List.getElem?_cons_succ]; exact h1
                · rw [List.getElem?_cons_succ]; exact h2
            · rintro ⟨n, p', q', h1, h2, h3, h4⟩
              cases n with
              | zero =>
                  rw [List.getElem?_cons_zero] at h1
                  rw [List.getElem?_cons_succ, List.getElem?_cons_zero] at h2
                  cases h1
                  cases h2
                  exact List.mem_cons.mpr (Or.inl h4)
              | succ m =>
                  rw [List.getElem?_cons_succ] at h1 h2
                  exact List.mem_cons.mpr (Or.inr ((ih x).mpr ⟨m, p', q', h1, h2, h3, h4⟩))
          · rw [if_neg hs]
            constructor
            · intro hx
              obtain ⟨n, p', q', h1, h2, h3, h4⟩ := (ih x).mp hx
              refine ⟨n + 1, p', q', ?_, ?_, h3, h4⟩
              · rw [List.getElem?_cons_succ]; exact h1
              · rw [List.getElem?_cons_succ]; exact h2
            · rintro ⟨n, p', q', h1, h2, h3, h4⟩
              cases n with
              | zero =>
                  rw [List.getElem?_cons_zero] at h1
                  rw [List.getElem?_cons_succ, List.getElem?_cons_zero] at h2
                  cases h1
                  cases h2
                  exact absurd h3 hs
              | succ m =>
                  rw [List.getElem?_cons_succ] at h1 h2
                  exact (ih x).mpr ⟨m, p', q', h1, h2, h3, h4⟩

/-- The BDF grid always ends at `t0` plus a whole number of steps. -/
lemma bdfGrid_last_general (t0 tend H : ℚ) :
    (t0 :: bdfTimes t0 tend H).getLast? =
      some (t0 + ((bdfSteps t0 tend H : ℕ) : ℚ) * H) := by
  rw [bdfTimes]
  cases hn : bdfSteps t0 tend H with
  | zero => simp
  | succ m =>
      rw [List.range_succ, List.map_append]
      simp only [List.map_cons, List.map_nil]
      rw [← List.cons_append, List.getLast?_concat]
      congr 1
      push_cast
      ring

/-- On a proper interval, the number of whole steps lands the grid's end
in `(tend - H, tend]`: the last whole multiple of `H` not past `tend`. -/
lemma bdfSteps_bounds {t0 tend H : ℚ} (hH : 0 < H) (h0 : t0 ≤ tend) :
    t0 + ((bdfSteps t0 tend H : ℕ) : ℚ) * H ≤ tend ∧
      tend < t0 + ((bdfSteps t0 tend H : ℕ) : ℚ) * H + H := by
  have hfl0 : (0 : ℤ) ≤ ⌊(tend - t0) / H⌋ :=
    Int.floor_nonneg.mpr (div_nonneg (by linarith) hH.le)
  have h1 : ((⌊(tend - t0) / H⌋.toNat : ℤ)) = ⌊(tend - t0) / H⌋ :=
    Int.toNat_of_nonneg hfl0
  have hcast : (((bdfSteps t0 tend H : ℕ)) : ℚ) = ((⌊(tend - t0) / H⌋ : ℤ) : ℚ) := by
    rw [bdfSteps]
    exact_mod_cast h1
  constructor
  · have hle : ((⌊(tend - t0) / H⌋ : ℤ) : ℚ) ≤ (tend - t0) / H := Int.floor_le _
    have h2 := mul_le_mul_of_nonneg_right hle hH.le
    rw [div_mul_cancel₀ (tend - t0) (ne_of_gt hH)] at h2
    rw [hcast]
    linarith
  · have hlt : (tend - t0) / H < ((⌊(tend - t0) / H⌋ : ℤ) : ℚ) + 1 :=
      Int.lt_floor_add_one _
    have h2 := (div_lt_iff₀ hH).mp hlt
    have h3 : (((⌊(tend - t0) / H⌋ : ℤ) : ℚ) + 1) * H =
        ((⌊(tend - t0) / H⌋ : ℤ) : ℚ) * H + H := by ring
    rw [hcast]
    linarith [h3 ▸ h2]

/-- C6: a failed nested sub-integration propagates and is never
dropped.  (i) the envelope evaluation fails whenever its sub-solve
fails, and never returns a value; (ii) at any state a forward-Euler
drive reaches, a failing envelope evaluation aborts the whole solve
with that failure; (iii)-(v) a successful run of any calling integrator
(forward Euler, BDF, variable-step) consists exclusively of steps whose
envelope evaluations / implicit solves succeeded, covering the whole
grid — so no failed sub-integration is ever silently dropped from a
returned result. -/
theorem sub_integration_failure_propagates :
    (∀ (F : Sys) (T t : ℚ) (y : StateVec) (e : SolveError),
        ivpCore (liftSys F) t (t + T) y = Except.error e →
        _envelope_system t y F T = Except.error e) ∧
    (∀ (F : Sys) (T t : ℚ) (y : StateVec) (e : SolveError) (v : StateVec),
        ivpCore (liftSys F) t (t + T) y = Except.error e →
        _envelope_system t y F T ≠ Except.ok v) ∧
    (∀ (F : Sys) (T tend H : ℚ) (fuel : Nat) (t : ℚ) (y : StateVec)
        (e : SolveError), t < tend →
        _envelope_system t y F T = Except.error e →
        feLoop (fun t y => _envelope_system t y F T) tend H (fuel + 1) t y =
          Except.error e) ∧
    (∀ (F : Sys) (T t0 tend : ℚ) (y0 : StateVec) (H : ℚ) (b : SolutionBundle),
        t0 < tend → 0 < H →
        forward_euler (fun t y => _envelope_system t y F T) t0 tend y0 H =
          Except.ok b →
        List.Chain' (feStepOk (fun t y => _envelope_system t y F T) tend H)
          (b.t.zip b.y) ∧ b.t.getLast? = some tend) ∧
    (∀ (F : Sys) (T t0 tend : ℚ) (y0 : StateVec) (H : ℚ) (order : Nat)
        (b : SolutionBundle),
        bdf (fun t y => _envelope_system t y F T) t0 tend y0 H order =
          Except.ok b →
        ∃ pairs, bdfRun (fun t y => _envelope_system t y F T) H order
            (bdfTimes t0 tend H) [y0] pairs ∧
          b.t = t0 :: pairs.map Prod.fst ∧ b.y = y0 :: pairs.map Prod.snd) ∧
    (∀ (F : Sys) (T t0 t1 : ℚ) (y0 : StateVec)
        (events : List (ℚ → StateVec → ℚ)) (b : SolutionBundle),
        solve_ivp (fun t y => _envelope_system t y F T) t0 t1 y0 events =
          Except.ok b →
        List.Chain' (ivpStepOk (fun t y => _envelope_system t y F T))
          (b.t.zip b.y)) := by
  have hmain : ∀ (F : Sys) (T t : ℚ) (y : StateVec) (e : SolveError),
      ivpCore (liftSys F) t (t + T) y = Except.error e →
      _envelope_system t y F T = Except.error e := by
    intro F T t y e h
    rw [_envelope_system, h]
  refine ⟨hmain, ?_, ?_, ?_, ?_, ?_⟩
  · intro F T t y e v h
    rw [hmain F T t y e h]
    intro hc
    cases hc
  · intro F T tend H fuel t y e hlt hG
    rw [feLoop, if_neg (not_le.mpr hlt), hG]
  · intro F T t0 tend y0 H b hlt hH h
    rw [forward_euler] at h
    split at h
    · cases h
    · split at h
      · cases h
      · rename_i pairs hp
        cases h
        constructor
        · show List.Chain' _ ((t0 :: pairs.map Prod.fst).zip (y0 :: pairs.map Prod.snd))
          rw [List.zip_cons_cons, zip_map_fst_snd]
          exact feLoop_stepOk _ tend H _ t0 y0 pairs hp
        · show (t0 :: pairs.map Prod.fst).getLast? = some tend
          have hlast := feLoop_ok_last _ tend H hH (feFuel t0 tend H) t0 y0
            pairs hlt (by rw [feFuel]; omega) hp
          cases pairs with
          | nil => simp at hlast
          | cons c l2 =>
              simpa only [List.map_cons, List.getLast?_cons_cons] using hlast
  · intro F T t0 tend y0 H order b h
    obtain ⟨_, _, _, pairs, hp, ht, hy, _, _, _⟩ := bdf_ok_shape h
    exact ⟨pairs, bdfLoop_run _ H order _ _ pairs hp, ht, hy⟩
  · intro F T t0 t1 y0 events b h
    rw [solve_ivp] at h
    split at h
    · cases h
    · rename_i pairs hp
      cases h
      show List.Chain' _ ((t0 :: pairs.map Prod.fst).zip (y0 :: pairs.map Prod.snd))
      rw [List.zip_cons_cons, zip_map_fst_snd]
      exact ivpLoop_stepOk _ (uniformTail t0 t1) t0 y0 pairs hp

/-- C7 (amended): the macro grid of `envelope_full` is always spaced
exactly `H` apart starting at `t0`; its last point is the largest whole
multiple of `H` not past `tend` (within `H` of `tend`), and it equals
`tend` exactly when the horizon is a whole number of macro-steps. -/
theorem envelope_macro_grid_spacing (F : Sys) (t0 tend : ℚ) (y0 : StateVec)
    (T H : ℚ) (m order : Nat) (b : SolutionBundle)
    (_hT : 0 < T) (_hm : H = (m : ℚ) * T) (_hm1 : 1 ≤ m) (h0 : t0 ≤ tend)
    (h : envelope_full F t0 tend y0 T H order = Except.ok b) :
    List.Chain' (fun a c : ℚ => c - a = H) b.T ∧
    b.T.head? = some t0 ∧
    b.T.getLast? = some (t0 + ((bdfSteps t0 tend H : ℕ) : ℚ) * H) ∧
    t0 + ((bdfSteps t0 tend H : ℕ) : ℚ) * H ≤ tend ∧
    tend < t0 + ((bdfSteps t0 tend H : ℕ) : ℚ) * H + H ∧
    ∀ k : Nat, tend - t0 = (k : ℚ) * H → 1 ≤ k → b.T.getLast? = some tend := by
  obtain ⟨mac, fine, hmac, _, _, _, hTmac, _, _⟩ := envelope_full_ok_shape h
  obtain ⟨hH, _, _, pairs, hp, hmt, _, _, _, _⟩ := bdf_ok_shape hmac
  have htimes := bdfLoop_times _ H order _ _ pairs hp
  obtain ⟨hb1, hb2⟩ := bdfSteps_bounds hH h0
  rw [hTmac, hmt, htimes]
  refine ⟨bdfGrid_spacing t0 tend H, rfl, bdfGrid_last_general t0 tend H,
    hb1, hb2, ?_⟩
  intro k hk hk1
  exact bdfGrid_last hH hk hk1

/-- C10: with event functions supplied, `t_events` holds one entry per
event function, aligned by position: entry `i` is exactly the crossing
list of event function `i` over the computed trajectory, where a time
is recorded precisely when some adjacent pair of trajectory samples
changes the sign of that event function and the time is the zero of its
linear interpolant on that panel; each entry is strictly increasing. -/
theorem solve_ivp_events_shape (F : FSys) (t0 t1 : ℚ) (y0 : StateVec)
    (events : List (ℚ → StateVec → ℚ)) (b : SolutionBundle)
    (h01 : t0 < t1) (hok : solve_ivp F t0 t1 y0 events = Except.ok b) :
    b.t_events.length = events.length ∧
    (∀ l ∈ b.t_events, List.Chain' (fun a c : ℚ => a < c) l) ∧
    ∃ pairs, ivpCore F t0 t1 y0 = Except.ok pairs ∧
      b.t = t0 :: pairs.map Prod.fst ∧
      (∀ (i : Nat) (e : ℚ → StateVec → ℚ), events[i]? = some e →
        b.t_events[i]? = some (crossings e ((t0, y0) :: pairs))) ∧
      ∀ (e : ℚ → StateVec → ℚ), e ∈ events → ∀ x : ℚ,
        x ∈ crossings e ((t0, y0) :: pairs) ↔
          ∃ n p q, ((t0, y0) :: pairs)[n]? = some p ∧
            ((t0, y0) :: pairs)[n + 1]? = some q ∧
            e p.1 p.2 * e q.1 q.2 < 0 ∧
            x = (p.1 * e q.1 q.2 - q.1 * e p.1 p.2) /
              (e q.1 q.2 - e p.1 p.2) := by
  rw [solve_ivp] at hok
  split at hok
  · cases hok
  · rename_i pairs hp
    cases hok
    refine ⟨by simp, ?_, pairs, hp, rfl, ?_, ?_⟩
    · intro l hl
      simp only [List.mem_map] at hl
      obtain ⟨e, _, rfl⟩ := hl
      exact crossings_chain e _ (traj_chain h01 hp)
    · intro i e he
      show (events.map _)[i]? = _
      rw [List.getElem?_map, he]
      rfl
    · intro e _ x
      exact crossings_mem e ((t0, y0) :: pairs) x

attribute [local semireducible] Rat.add Rat.sub Rat.mul Rat.inv Nat.gcd

/-- C7 (counterexample): with fast period `T = 1`, macro-step `H = 2·T`
and horizon `[0, 3]`, the macro grid of `envelope_full` is `[0, 2]` —
its last point is not the requested end time `3`, so the grid does not
cover the full requested horizon. -/
theorem envelope_macro_grid_counterexample :
    envelope_full (fun _ _ => [0]) 0 3 [0] 1 2 1 =
      Except.ok ⟨[0, 1/4, 1/2, 3/4, 1], [[0], [0], [0], [0], [0]], [],
        [0, 2], [[0], [0]]⟩ ∧
    ([0, 2] : List ℚ).getLast? ≠ some 3 := by
  constructor
  · decide
  · decide

/-- Witness for C1 at a concrete convergent run. -/
theorem envelope_system_finite_difference_witness :
    (0 : ℚ) < 1 ∧
    ivpCore (liftSys (fun _ _ => [1])) 0 (0 + 1) [0] =
      Except.ok [(1/4, [1/4]), (1/2, [1/2]), (3/4, [3/4]), (1, [1])] ∧
    _envelope_system 0 [0] (fun _ _ => [1]) 1 = Except.ok [1] ∧
    (([(1/4, [1/4]), (1/2, [1/2]), (3/4, [3/4]),
        ((1 : ℚ), [(1 : ℚ)])] : List (ℚ × StateVec)).map Prod.fst).getLast? =
      some (0 + 1) := by
  have hcore : ivpCore (liftSys (fun _ _ => [1])) 0 (0 + 1) [0] =
      Except.ok [(1/4, [1/4]), (1/2, [1/2]), (3/4, [3/4]), (1, [1])] := by decide
  have h := envelope_system_finite_difference (fun _ _ => [1]) 1 0 [0]
    [(1/4, [1/4]), (1/2, [1/2]), (3/4, [3/4]), (1, [1])] (by decide) hcore
  exact ⟨by decide, hcore, h.1.trans (by decide), h.2⟩

/-- Witness for C2 at a concrete successful envelope run. -/
theorem envelope_full_bundle_structure_witness :
    (0 : ℚ) < 1 ∧ (2 : ℚ) = ((2 : Nat) : ℚ) * 1 ∧ 1 ≤ 2 ∧
    (∃ mac fine,
      bdf (fun t y => _envelope_system t y (fun _ _ => [0]) 1) 0 4 [0] 2 1 =
        Except.ok mac ∧
      reconstruct (fun _ _ => [0]) 1 (mac.t.zip mac.y) = Except.ok fine ∧
      (⟨[0, 1/4, 1/2, 3/4, 1, 9/4, 5/2, 11/4, 3],
        [[0], [0], [0], [0], [0], [0], [0], [0], [0]], [],
        [0, 2, 4], [[0], [0], [0]]⟩ : SolutionBundle).T = mac.t ∧
      (⟨[0, 1/4, 1/2, 3/4, 1, 9/4, 5/2, 11/4, 3],
        [[0], [0], [0], [0], [0], [0], [0], [0], [0]], [],
        [0, 2, 4], [[0], [0], [0]]⟩ : SolutionBundle).Z = mac.y ∧
      (⟨[0, 1/4, 1/2, 3/4, 1, 9/4, 5/2, 11/4, 3],
        [[0], [0], [0], [0], [0], [0], [0], [0], [0]], [],
        [0, 2, 4], [[0], [0], [0]]⟩ : SolutionBundle).t =
          0 :: fine.map Prod.fst ∧
      (⟨[0, 1/4, 1/2, 3/4, 1, 9/4, 5/2, 11/4, 3],
        [[0], [0], [0], [0], [0], [0], [0], [0], [0]], [],
        [0, 2, 4], [[0], [0], [0]]⟩ : SolutionBundle).y =
          [0] :: fine.map Prod.snd) := by
  refine ⟨by decide, by decide, by decide, ?_⟩
  exact envelope_full_bundle_structure (fun _ _ => [0]) 0 4 [0] 1 2 2 1 _
    (by decide) (by decide) (by decide) (by decide)

/-- Witness for C3 at a concrete run. -/
theorem forward_euler_recurrence_witness :
    (0 : ℚ) < 1 ∧ (0 : ℚ) < 1/2 ∧
    (∃ b, forward_euler (liftSys (fun _ _ => [1])) 0 1 [0] (1/2) = Except.ok b ∧
      b.t.head? = some 0 ∧ b.y.head? = some [0] ∧
      List.Chain' (feRel (fun _ _ => [1]) 1 (1/2)) (b.t.zip b.y) ∧
      b.t.getLast? = some 1) :=
  ⟨by decide, by decide,
    forward_euler_recurrence (fun _ _ => [1]) 0 1 [0] (1/2) (by decide) (by decide)⟩

/-- Witness for C4: one concrete successful run per integrator. -/
theorem integrator_monotone_time_witness :
    (∃ b, forward_euler (liftSys (fun _ _ => [0])) 0 1 [0] (1/2) = Except.ok b ∧
      List.Chain' (fun a c : ℚ => a < c) b.t ∧ ∀ x ∈ b.t, x ≤ 1) ∧
    (∃ b, bdf (liftSys (fun _ _ => [0])) 0 2 [0] 1 2 = Except.ok b ∧
      List.Chain' (fun a c : ℚ => a < c) b.t ∧ ∀ x ∈ b.t, x ≤ 2) ∧
    (∃ b, solve_ivp (liftSys (fun _ _ => [0])) 0 1 [0] [] = Except.ok b ∧
      List.Chain' (fun a c : ℚ => a < c) b.t ∧ ∀ x ∈ b.t, x ≤ 1) ∧
    (∃ b, envelope_full (fun _ _ => [0]) 0 4 [0] 1 2 1 = Except.ok b ∧
      List.Chain' (fun a c : ℚ => a < c) b.t ∧ ∀ x ∈ b.t, x ≤ 4) := by
  refine ⟨?_, ?_, ?_, ?_⟩
  · exact ⟨_, by decide,
      integrator_monotone_time.1 (liftSys (fun _ _ => [0])) 0 1 [0] (1/2)
        ⟨[0, 1/2, 1], [[0], [0], [0]], [], [], []⟩
        (by decide) (by decide) (by decide)⟩
  · exact ⟨_, by decide,
      integrator_monotone_time.2.1 (liftSys (fun _ _ => [0])) 0 2 [0] 1 2
        ⟨[0, 1, 2], [[0], [0], [0]], [], [], []⟩ (by decide) (by decide)⟩
  · exact ⟨_, by decide,
      integrator_monotone_time.2.2.1 (liftSys (fun _ _ => [0])) 0 1 [0] []
        ⟨[0, 1/4, 1/2, 3/4, 1], [[0], [0], [0], [0], [0]], [], [], []⟩
        (by decide) (by decide)⟩
  · exact ⟨_, by decide,
      integrator_monotone_time.2.2.2 (fun _ _ => [0]) 0 4 1 2 [0] 2 1
        ⟨[0, 1/4, 1/2, 3/4, 1, 9/4, 5/2, 11/4, 3],
          [[0], [0], [0], [0], [0], [0], [0], [0], [0]], [],
          [0, 2, 4], [[0], [0], [0]]⟩
        (by decide) (by decide) (by decide) (by decide) (by decide)⟩

/-- Witness for C5 at concrete invalid configurations. -/
theorem invalid_config_rejected_witness :
    forward_euler (liftSys (fun _ _ => [0])) 0 1 [0] (-1) =
      Except.error SolveError.nonPositiveStep ∧
    bdf (liftSys (fun _ _ => [0])) 0 1 [0] (-1) 1 =
      Except.error SolveError.nonPositiveStep ∧
    bdf (liftSys (fun _ _ => [0])) 0 1 [0] 1 5 =
      Except.error SolveError.badOrder :=
  ⟨invalid_config_rejected.1 (liftSys (fun _ _ => [0])) 0 1 [0] (-1) (by decide),
   invalid_config_rejected.2.1 (liftSys (fun _ _ => [0])) 0 1 [0] (-1) 1 (by decide),
   invalid_config_rejected.2.2 (liftSys (fun _ _ => [0])) 0 1 [0] 1 5
     (by decide) (by decide)⟩


/-- Witness for C6: a concrete divergent sub-integration propagates
through the envelope evaluation and the Euler loop, and concrete
successful runs of all three calling integrators consist of recorded
successful steps. -/
theorem sub_integration_failure_propagates_witness :
    ivpCore (liftSys (fun _ y => vecScale 20 y)) 0 (0 + 4) [1] =
      Except.error SolveError.nonConvergence ∧
    _envelope_system 0 [1] (fun _ y => vecScale 20 y) 4 =
      Except.error SolveError.nonConvergence ∧
    _envelope_system 0 [1] (fun _ y => vecScale 20 y) 4 ≠ Except.ok [0] ∧
    feLoop (fun t y => _envelope_system t y (fun _ y => vecScale 20 y) 4)
        1 1 1 0 [1] = Except.error SolveError.nonConvergence ∧
    (List.Chain'
        (feStepOk (fun t y => _envelope_system t y (fun _ _ => [0]) 1) 1 (1/2))
        ((⟨[0, 1/2, 1], [[0], [0], [0]], [], [], []⟩ : SolutionBundle).t.zip
          (⟨[0, 1/2, 1], [[0], [0], [0]], [], [], []⟩ : SolutionBundle).y) ∧
      (⟨[0, 1/2, 1], [[0], [0], [0]], [], [], []⟩ : SolutionBundle).t.getLast? =
        some 1) ∧
    (∃ pairs, bdfRun (fun t y => _envelope_system t y (fun _ _ => [0]) 1) 1 1
        (bdfTimes 0 2 1) [[0]] pairs ∧
      (⟨[0, 1, 2], [[0], [0], [0]], [], [], []⟩ : SolutionBundle).t =
        0 :: pairs.map Prod.fst ∧
      (⟨[0, 1, 2], [[0], [0], [0]], [], [], []⟩ : SolutionBundle).y =
        [0] :: pairs.map Prod.snd) ∧
    List.Chain' (ivpStepOk (fun t y => _envelope_system t y (fun _ _ => [0]) 1))
      ((⟨[0, 1/4, 1/2, 3/4, 1], [[0], [0], [0], [0], [0]], [], [], []⟩ :
          SolutionBundle).t.zip
        (⟨[0, 1/4, 1/2, 3/4, 1], [[0], [0], [0], [0], [0]], [], [], []⟩ :
          SolutionBundle).y) := by
  have h1 : ivpCore (liftSys (fun _ y => vecScale 20 y)) 0 (0 + 4) [1] =
      Except.error SolveError.nonConvergence := by decide
  have h2 := sub_integration_failure_propagates.1 (fun _ y => vecScale 20 y)
    4 0 [1] SolveError.nonConvergence h1
  have h2b := sub_integration_failure_propagates.2.1 (fun _ y => vecScale 20 y)
    4 0 [1] SolveError.nonConvergence [0] h1
  have h3 := sub_integration_failure_propagates.2.2.1 (fun _ y => vecScale 20 y)
    4 1 1 0 0 [1] SolveError.nonConvergence (by decide) h2
  have h4 := sub_integration_failure_propagates.2.2.2.1 (fun _ _ => [0]) 1
    0 1 [0] (1/2) ⟨[0, 1/2, 1], [[0], [0], [0]], [], [], []⟩
    (by decide) (by decide) (by decide)
  have h5 := sub_integration_failure_propagates.2.2.2.2.1 (fun _ _ => [0]) 1
    0 2 [0] 1 1 ⟨[0, 1, 2], [[0], [0], [0]], [], [], []⟩ (by decide)
  have h6 := sub_integration_failure_propagates.2.2.2.2.2 (fun _ _ => [0]) 1
    0 1 [0] [] ⟨[0, 1/4, 1/2, 3/4, 1], [[0], [0], [0], [0], [0]], [], [], []⟩
    (by decide)
  exact ⟨h1, h2, h2b, h3, h4, h5, h6⟩

/-- Witness for C7 (amended) at a concrete divisible horizon. -/
theorem envelope_macro_grid_spacing_witness :
    (0 : ℚ) < 1 ∧ (2 : ℚ) = ((2 : Nat) : ℚ) * 1 ∧ (0 : ℚ) ≤ 4 ∧
    (∃ b, envelope_full (fun _ _ => [0]) 0 4 [0] 1 2 1 = Except.ok b ∧
      List.Chain' (fun a c : ℚ => c - a = 2) b.T ∧
      b.T.head? = some 0 ∧
      b.T.getLast? = some (0 + ((bdfSteps 0 4 2 : ℕ) : ℚ) * 2) ∧
      0 + ((bdfSteps 0 4 2 : ℕ) : ℚ) * 2 ≤ 4 ∧
      (4 : ℚ) < 0 + ((bdfSteps 0 4 2 : ℕ) : ℚ) * 2 + 2 ∧
      ∀ k : Nat, (4 : ℚ) - 0 = (k : ℚ) * 2 → 1 ≤ k →
        b.T.getLast? = some 4) := by
  refine ⟨by decide, by decide, by decide, ?_⟩
  refine ⟨⟨[0, 1/4, 1/2, 3/4, 1, 9/4, 5/2, 11/4, 3],
      [[0], [0], [0], [0], [0], [0], [0], [0], [0]], [],
      [0, 2, 4], [[0], [0], [0]]⟩, by decide, ?_⟩
  exact envelope_macro_grid_spacing (fun _ _ => [0]) 0 4 [0] 1 2 2 1 _
    (by decide) (by decide) (by decide) (by decide) (by decide)

/-- Witness for C10 at a concrete run with one event crossing. -/
theorem solve_ivp_events_shape_witness :
    (0 : ℚ) < 1 ∧
    solve_ivp (liftSys (fun _ _ => [0])) 0 1 [0] [fun t _ => t - 1/3] =
      Except.ok ⟨[0, 1/4, 1/2, 3/4, 1], [[0], [0], [0], [0], [0]],
        [[1/3]], [], []⟩ ∧
    ((⟨[0, 1/4, 1/2, 3/4, 1], [[0], [0], [0], [0], [0]], [[1/3]], [], []⟩ :
        SolutionBundle).t_events.length =
      [fun (t : ℚ) (_ : StateVec) => t - 1/3].length ∧
    (∀ l ∈ (⟨[0, 1/4, 1/2, 3/4, 1], [[0], [0], [0], [0], [0]], [[1/3]], [], []⟩ :
        SolutionBundle).t_events, List.Chain' (fun a c : ℚ => a < c) l) ∧
    ∃ pairs, ivpCore (liftSys (fun _ _ => [0])) 0 1 [0] = Except.ok pairs ∧
      (⟨[0, 1/4, 1/2, 3/4, 1], [[0], [0], [0], [0], [0]], [[1/3]], [], []⟩ :
        SolutionBundle).t = 0 :: pairs.map Prod.fst ∧
      (∀ (i : Nat) (e : ℚ → StateVec → ℚ),
          [fun (t : ℚ) (_ : StateVec) => t - 1/3][i]? = some e →
          (⟨[0, 1/4, 1/2, 3/4, 1], [[0], [0], [0], [0], [0]], [[1/3]], [], []⟩ :
            SolutionBundle).t_events[i]? =
            some (crossings e ((0, [0]) :: pairs))) ∧
      ∀ (e : ℚ → StateVec → ℚ),
        e ∈ [fun (t : ℚ) (_ : StateVec) => t - 1/3] → ∀ x : ℚ,
        x ∈ crossings e ((0, [0]) :: pairs) ↔
          ∃ n p q, ((0, [0]) :: pairs)[n]? = some p ∧
            ((0, [0]) :: pairs)[n + 1]? = some q ∧
            e p.1 p.2 * e q.1 q.2 < 0 ∧
            x = (p.1 * e q.1 q.2 - q.1 * e p.1 p.2) /
              (e q.1 q.2 - e p.1 p.2)) := by
  have hok : solve_ivp (liftSys (fun _ _ => [0])) 0 1 [0] [fun t _ => t - 1/3] =
      Except.ok ⟨[0, 1/4, 1/2, 3/4, 1], [[0], [0], [0], [0], [0]],
        [[1/3]], [], []⟩ := by decide
  exact ⟨by decide, hok,
    solve_ivp_events_shape (liftSys (fun _ _ => [0])) 0 1 [0]
      [fun t _ => t - 1/3] _ (by decide) hok⟩
